import Mathlib

/-!
Verification of the allocation and batching engine of the BSV address
generator (`src/bsv_address_generator/core/distribution.py` together with the
constants of `src/config.py`).

Python `Decimal` values are embedded as exact rationals (`ℚ`).  Every
arithmetic operation the source performs on amounts (addition, subtraction,
multiplication by a decimal literal, comparison) is exact in `Decimal` at the
magnitudes the program handles, so the embedding is faithful; the two rounding
operations the source uses are modelled explicitly:

* `Decimal.quantize(Decimal("0.00000001"), rounding=ROUND_DOWN)` truncates
  toward zero at 8 fractional digits (`quantize8_down` below);
* `int(Decimal)` truncates toward zero (`decTrunc` below).

Python `int` values are embedded as `ℤ`.  A Python function that can raise is
embedded as an `Option`-returning function, `none` marking the raising runs
(the only raising operations in this module are `Decimal` division by zero,
indexing an empty list, `min`/`max` of an empty sequence, and the explicit
`ValueError` of `create_address_batches`).  Calls to `random.random()` are
embedded as an explicit stream `ℕ → ℚ` of draw results consumed in order, and
`random.shuffle` as an explicit reordering function.
-/

section DistributionModel

attribute [local semireducible] Rat.add Rat.sub Rat.mul Rat.inv

/-- `BSV_DUST_LIMIT = 546` (satoshis), from `config.py`. -/
def BSV_DUST_LIMIT : ℚ := 546

/-- `SATOSHIS_PER_BSV = 100000000`, from `config.py`. -/
def SATOSHIS_PER_BSV : ℚ := 100000000

/-- The dust limit expressed in BSV, `Decimal(BSV_DUST_LIMIT) / SATOSHIS_PER_BSV`,
computed at the top of `is_above_dust_limit` and `get_minimum_viable_amount`. -/
def dust_limit_bsv : ℚ := BSV_DUST_LIMIT / SATOSHIS_PER_BSV

/-- Truncation toward zero of a rational to an integer: the behaviour of both
Python `int(Decimal)` and of `ROUND_DOWN` on the integral part.  Written with
the executable `Rat.floor` so that concrete runs reduce in the kernel. -/
def decTrunc (x : ℚ) : ℤ := if 0 ≤ x then x.floor else -(Rat.floor (-x))

theorem ratFloor_eq_floor (q : ℚ) : q.floor = ⌊q⌋ := by
  rw [Rat.floor_def', ← Rat.floor_def]

theorem decTrunc_eq (x : ℚ) : decTrunc x = if 0 ≤ x then ⌊x⌋ else ⌈x⌉ := by
  unfold decTrunc
  rw [ratFloor_eq_floor, ratFloor_eq_floor, Int.floor_neg, neg_neg]

/-- `x.quantize(Decimal("0.00000001"), rounding=ROUND_DOWN)`: truncation toward
zero at 8 fractional digits (`SATOSHI_PRECISION = "0.00000001"`). -/
def quantize8_down (x : ℚ) : ℚ := (decTrunc (x * 100000000) : ℚ) / 100000000

/-- `get_minimum_viable_amount()`: dust limit in BSV times `Decimal("1.1")`
(10% buffer above the dust limit). -/
def get_minimum_viable_amount : ℚ := dust_limit_bsv * (11 / 10)

/-- `is_above_dust_limit(amount)`: `amount > dust_limit_bsv`. -/
def is_above_dust_limit (amount : ℚ) : Bool := amount > dust_limit_bsv

/-- `calculate_optimal_address_count(total_amount, max_addresses=None)`:
`int(total_amount / min_viable_amount)`, clamped to `max_addresses` when that
argument is provided. -/
def calculate_optimal_address_count (total_amount : ℚ) (max_addresses : Option ℤ) : ℤ :=
  let min_viable_amount := get_minimum_viable_amount
  let max_possible := decTrunc (total_amount / min_viable_amount)
  match max_addresses with
  | some m => min max_possible m
  | none => max_possible

/-- `validate_distribution_feasibility(total_amount, address_count, min_amount)`.
Returns the pair `(is_feasible, suggested_address_count)`; the human-readable
`error_message` component of the source's triple is omitted (it is never
consulted by any caller in this module).  `min_amount or min_viable` is Python
truthiness: `None` and `Decimal(0)` both fall back to `min_viable`. -/
def effective_min_of (min_amount : Option ℚ) : ℚ :=
  max (match min_amount with
       | none => get_minimum_viable_amount
       | some m => if m = 0 then get_minimum_viable_amount else m)
    get_minimum_viable_amount

def validate_distribution_feasibility (total_amount : ℚ) (address_count : ℤ)
    (min_amount : Option ℚ) : Bool × ℤ :=
  let min_total_required := effective_min_of min_amount * (address_count : ℚ)
  if min_total_required > total_amount then
    (false, calculate_optimal_address_count total_amount none)
  else
    (true, address_count)

/-- `distribute_amounts_equal(total_amount, address_count)`.  `none` marks the
raising runs: `Decimal` division by zero when the feasibility-resolved count is
`0`, and the `amounts[0] += remainder` `IndexError` when the resolved count is
negative (Python `[x] * n` is empty for `n ≤ 0`) while the remainder is
positive. -/
def distribute_amounts_equal (total_amount : ℚ) (address_count : ℤ) :
    Option (List ℚ × ℤ) :=
  let actual_count := (validate_distribution_feasibility total_amount address_count none).2
  if actual_count = 0 then none
  else
    let amount_per_address := quantize8_down (total_amount / (actual_count : ℚ))
    let amounts := List.replicate actual_count.toNat amount_per_address
    let remainder := total_amount - amounts.sum
    if remainder > 0 then
      match amounts with
      | [] => none
      | a :: rest => some ((a + remainder) :: rest, actual_count)
    else
      some (amounts, actual_count)

/-- The parameter normalisation at the head of `distribute_amounts_random`
(lines 298-325): clamp `min_amount` up to the minimum viable amount, resolve
the address count through the feasibility validator, and tighten `max_amount`
to `avg_amount * Decimal("1.8")` when `max_amount > avg_amount * Decimal("2.0")`.
When the resolved count is `0` the source raises at the `avg_amount` division;
the wrapper `distribute_amounts_random` returns `none` for that case and
discards this value. -/
def random_used_params (total_amount : ℚ) (address_count : ℤ)
    (min_amount max_amount : ℚ) : ℚ × ℤ × ℚ :=
  let min_amount := max min_amount get_minimum_viable_amount
  let actual_count :=
    (validate_distribution_feasibility total_amount address_count (some min_amount)).2
  let avg_amount := total_amount / (actual_count : ℚ)
  let max_amount := if max_amount > avg_amount * 2 then avg_amount * (18 / 10) else max_amount
  (min_amount, actual_count, max_amount)

/-- The body of one iteration of the `for i in range(actual_count - 1)` loop
of `distribute_amounts_random` (lines 331-347): cap the draw range by what
must stay behind for the recipients still to fill, fall back to `min_amount`
when the range collapses, otherwise draw uniformly in the range and truncate
to satoshi precision. -/
def random_step_amount (min_amount max_amount remaining : ℚ)
    (remaining_addresses : ℕ) (draw : ℚ) : ℚ :=
  let max_for_remaining := remaining - min_amount * (remaining_addresses : ℚ)
  let actual_max := min max_amount max_for_remaining
  if actual_max ≤ min_amount then min_amount
  else quantize8_down (min_amount + (actual_max - min_amount) * draw)

/-- The `for i in range(actual_count - 1)` loop of `distribute_amounts_random`
(lines 330-350).  The `ℕ` argument counts the iterations still to run, which
equals the source's `remaining_addresses = actual_count - i - 1` at the start
of each iteration; `idx` indexes the stream of `random.random()` draws.
Returns the accumulated `amounts` list and the final `remaining`. -/
def random_fill (min_amount max_amount : ℚ) (factors : ℕ → ℚ) :
    ℕ → ℕ → ℚ → List ℚ × ℚ
  | _, 0, remaining => ([], remaining)
  | idx, toGo + 1, remaining =>
      let amount := random_step_amount min_amount max_amount remaining (toGo + 1) (factors idx)
      let rest := random_fill min_amount max_amount factors (idx + 1) toGo (remaining - amount)
      (amount :: rest.1, rest.2)

/-- The backward reclaim scan of `distribute_amounts_random` (lines 355-361):
walk the produced amounts from the last toward the first and subtract `needed`
from the first entry found with `amounts[i] > min_amount + needed`; `none` when
no entry qualifies (the loop falls through without `break`). -/
def reclaim_last (min_amount needed : ℚ) : List ℚ → Option (List ℚ)
  | [] => none
  | a :: rest =>
      match reclaim_last min_amount needed rest with
      | some rest_mod => some (a :: rest_mod)
      | none => if a > min_amount + needed then some ((a - needed) :: rest) else none

/-- `distribute_amounts_random(total_amount, address_count, min_amount, max_amount)`.
`none` marks the raising run: `Decimal` division by zero at
`avg_amount = total_amount / actual_count` when the resolved count is `0`. -/
def distribute_amounts_random (total_amount : ℚ) (address_count : ℤ)
    (min_amount max_amount : ℚ) (factors : ℕ → ℚ) : Option (List ℚ × ℤ) :=
  let p := random_used_params total_amount address_count min_amount max_amount
  let min_amount := p.1
  let actual_count := p.2.1
  let max_amount := p.2.2
  if actual_count = 0 then none
  else
    let fill := random_fill min_amount max_amount factors 0 (actual_count - 1).toNat total_amount
    let amounts := fill.1
    let final_amount := fill.2
    let min_viable := get_minimum_viable_amount
    if final_amount < min_viable then
      let needed := min_viable - final_amount
      match reclaim_last min_amount needed amounts with
      | some amounts_mod => some (amounts_mod ++ [final_amount + needed], actual_count)
      | none => some (amounts ++ [final_amount], actual_count)
    else some (amounts ++ [final_amount], actual_count)

/-- The body of one non-final iteration of the `distribute_amounts_random_smart`
loop (lines 429-452): cap the draw range by what must stay behind for the
recipients still to fill, additionally (when exactly two recipients remain)
by a reasonable leave-for-last threshold, fall back to `min_amount` when the
range collapses, otherwise draw uniformly in the range and truncate to
satoshi precision. -/
def smart_step_amount (min_amount max_amount remaining : ℚ)
    (remaining_addresses : ℕ) (draw : ℚ) : ℚ :=
  let min_for_remaining := min_amount * ((remaining_addresses : ℚ) - 1)
  let max_available := remaining - min_for_remaining
  let target_last_amount := max_amount * (11 / 10)
  let max_available :=
    if remaining_addresses = 2 then
      min max_available (remaining - min target_last_amount (max_amount * (3 / 2)))
    else max_available
  let actual_max := min max_amount max_available
  if actual_max ≤ min_amount then min_amount
  else quantize8_down (min_amount + (actual_max - min_amount) * draw)

/-- The `for i in range(actual_count)` loop of `distribute_amounts_random_smart`
(lines 417-455).  The `ℕ` argument is the source's
`remaining_addresses = actual_count - i`; at `1` the final recipient receives
`remaining`, clamped up to the minimum viable amount when it falls below it. -/
def smart_fill (min_amount max_amount : ℚ) (factors : ℕ → ℚ) :
    ℕ → ℕ → ℚ → List ℚ
  | _, 0, _ => []
  | _, 1, remaining =>
      [if remaining < get_minimum_viable_amount then get_minimum_viable_amount else remaining]
  | idx, toGo + 2, remaining =>
      let amount := smart_step_amount min_amount max_amount remaining (toGo + 2) (factors idx)
      amount :: smart_fill min_amount max_amount factors (idx + 1) (toGo + 1) (remaining - amount)

/-- `distribute_amounts_random_smart(total_amount, address_count, min_amount,
max_amount)`.  Never raises: the loop body performs no division and
`range(actual_count)` is empty for a non-positive resolved count. -/
def distribute_amounts_random_smart (total_amount : ℚ) (address_count : ℤ)
    (min_amount max_amount : ℚ) (factors : ℕ → ℚ) : List ℚ × ℤ :=
  let min_amount := max min_amount get_minimum_viable_amount
  let actual_count :=
    (validate_distribution_feasibility total_amount address_count (some min_amount)).2
  (smart_fill min_amount max_amount factors 0 actual_count.toNat total_amount, actual_count)

/-- `_validate_and_adjust_bounds(total_amount, address_count, min_amount,
max_amount, avg_amount)` (lines 155-234): the four sequential corrective
passes.  `none` marks the raising runs: `Decimal` division by zero at
`total_amount * Decimal("0.8") / address_count` and
`total_amount * Decimal("0.6") / address_count` when the count is `0`, and at
`total_amount / (address_count + 1)` when the count is `-1`. -/
def _validate_and_adjust_bounds (total_amount : ℚ) (address_count : ℤ)
    (min_amount max_amount avg_amount : ℚ) : Option (ℚ × ℚ) := do
  let c : ℚ := (address_count : ℚ)
  let min_amount ←
    if min_amount * c > total_amount then
      if address_count = 0 then none else some (total_amount * (8 / 10) / c)
    else some min_amount
  let max_amount ←
    if total_amount - max_amount * (c - 1) > max_amount * 2 then
      if address_count = -1 then none
      else some (min max_amount (total_amount / (c + 1) * (13 / 10)))
    else some max_amount
  let min_amount ←
    if min_amount * (c - 1) ≥ total_amount then
      if address_count = 0 then none else some (total_amount * (6 / 10) / c)
    else some min_amount
  if max_amount ≤ min_amount * (11 / 10) then
    let spread := avg_amount * (3 / 10)
    let min_amount := avg_amount - spread
    let max_amount := avg_amount + spread
    let min_amount := max min_amount (dust_limit_bsv * (11 / 10))
    some (min_amount, max_amount)
  else
    some (min_amount, max_amount)

/-- `calculate_optimal_random_bounds(total_amount, address_count)`.  Returns
`(min_amount, max_amount, feasible_address_count)`; of the `distribution_info`
dictionary only the `feasible_address_count` entry is retained (it is the only
entry any caller in this module reads), but the raising runs of the dropped
statistics are kept: `avg_amount = total_amount / address_count` raises when
the resolved count is `0`, and `variation_percent`, `min_percent_of_avg` and
`max_percent_of_avg` divide by `avg_amount`, raising when it is `0`. -/
def calculate_optimal_random_bounds (total_amount : ℚ) (address_count : ℤ) :
    Option (ℚ × ℚ × ℤ) := do
  let v := validate_distribution_feasibility total_amount address_count none
  let address_count := if v.1 then address_count else v.2
  if address_count = 0 then none
  else
    let avg_amount := total_amount / (address_count : ℚ)
    let min_viable := get_minimum_viable_amount
    let min_from_avg := avg_amount * (25 / 100)
    let min_amount := max min_viable min_from_avg
    let max_amount := avg_amount * (175 / 100)
    let b ← _validate_and_adjust_bounds total_amount address_count min_amount max_amount avg_amount
    if avg_amount = 0 then none
    else some (b.1, b.2, address_count)

/-- `distribute_amounts_random_optimal(total_amount, address_count)`.  Returns
the amounts list and the final address count; of the updated
`distribution_info` only the raising run is retained: `min(amounts)`,
`max(amounts)` and `sum(amounts) / len(amounts)` raise on an empty amounts
list. -/
def distribute_amounts_random_optimal (total_amount : ℚ) (address_count : ℤ)
    (factors : ℕ → ℚ) : Option (List ℚ × ℤ) := do
  let b ← calculate_optimal_random_bounds total_amount address_count
  let r := distribute_amounts_random_smart total_amount b.2.2 b.1 b.2.1 factors
  if r.1.isEmpty then none else some r

/-- One output batch of `create_address_batches`: the dictionary built at
lines 660-668 / 686-695. -/
structure Batch (α : Type) where
  batch_number : ℕ
  addresses : List α
  amounts : List ℚ
  total_amount : ℚ
  address_count : ℕ
deriving DecidableEq

/-- The variable per-batch target size: `max_bsv_per_batch * privacy_factor`
with `privacy_factor = 0.6 + (random.random() * 0.35)` (lines 642-643 and
677-678); `draw` is the `random.random()` result. -/
def privacy_target (max_bsv_per_batch : ℚ) (draw : ℚ) : ℚ :=
  max_bsv_per_batch * (6 / 10 + draw * (35 / 100))

/-- The batching walk of `create_address_batches` (lines 631-695).  State:
items still to process, closed batches, the current batch's addresses, amounts
and running total, the next batch number, the current target size, and the
index into the `random.random()` draw stream.  The source's
`len(current_batch_addresses) == 0` / `> 0` tests are translated as pattern
matching on the current address list.  A fresh target is drawn when the
current batch is empty (the very first item) and on every batch close; a
non-empty current batch is closed before an item that would push its total
over the target or over the hard ceiling. -/
def batchStep {α : Type} (max_bsv_per_batch : ℚ) (factors : ℕ → ℚ) :
    List (α × ℚ) → List (Batch α) → List α → List ℚ → ℚ → ℕ → ℚ → ℕ → List (Batch α)
  | [], batches, [], _, _, _, _, _ => batches
  | [], batches, a0 :: curA, curAmts, curTot, num, _, _ =>
      batches ++ [⟨num, a0 :: curA, curAmts, curTot, (a0 :: curA).length⟩]
  | (address, amount) :: rest, batches, [], curAmts, curTot, num, _, fIdx =>
      -- empty current batch (only the very first item): draw a fresh target;
      -- `should_start_new_batch` is false, the item joins the current batch
      batchStep max_bsv_per_batch factors rest batches [address] (curAmts ++ [amount])
        (curTot + amount) num (privacy_target max_bsv_per_batch (factors fIdx)) (fIdx + 1)
  | (address, amount) :: rest, batches, a0 :: curA, curAmts, curTot, num, target, fIdx =>
      if curTot + amount > target ∨ curTot + amount > max_bsv_per_batch then
        -- close the current batch, draw a fresh target, start the new batch
        -- with this item
        batchStep max_bsv_per_batch factors rest
          (batches ++ [⟨num, a0 :: curA, curAmts, curTot, (a0 :: curA).length⟩])
          [address] [amount] amount (num + 1)
          (privacy_target max_bsv_per_batch (factors fIdx)) (fIdx + 1)
      else
        batchStep max_bsv_per_batch factors rest batches ((a0 :: curA) ++ [address])
          (curAmts ++ [amount]) (curTot + amount) num target fIdx

/-- `create_address_batches(addresses, amounts, max_bsv_per_batch, randomize)`.
`none` marks the explicit `ValueError` raised when the two lists have unequal
lengths.  `shuffle` stands for the `random.shuffle` reordering applied when
`randomize` is set, `factors` for the stream of `random.random()` draws that
produce the per-batch privacy factors. -/
def create_address_batches {α : Type} (addresses : List α) (amounts : List ℚ)
    (max_bsv_per_batch : ℚ) (randomize : Bool)
    (shuffle : List (α × ℚ) → List (α × ℚ)) (factors : ℕ → ℚ) :
    Option (List (Batch α)) :=
  if addresses.length ≠ amounts.length then none
  else
    let combined_data := addresses.zip amounts
    let combined_data := if randomize then shuffle combined_data else combined_data
    some (batchStep max_bsv_per_batch factors combined_data [] [] [] 0 1 0 0)

/-! ### Basic facts about the embedded primitives -/

theorem mv_eq : get_minimum_viable_amount = 6006 / 1000000000 := by
  norm_num [get_minimum_viable_amount, dust_limit_bsv, BSV_DUST_LIMIT, SATOSHIS_PER_BSV]

theorem mv_pos : 0 < get_minimum_viable_amount := by rw [mv_eq]; norm_num

theorem dust_le_mv : dust_limit_bsv ≤ get_minimum_viable_amount := by
  rw [mv_eq]; norm_num [dust_limit_bsv, BSV_DUST_LIMIT, SATOSHIS_PER_BSV]

theorem dust_pos : 0 < dust_limit_bsv := by
  norm_num [dust_limit_bsv, BSV_DUST_LIMIT, SATOSHIS_PER_BSV]

theorem decTrunc_nonneg_eq {x : ℚ} (h : 0 ≤ x) : decTrunc x = ⌊x⌋ := by
  rw [decTrunc_eq, if_pos h]

theorem quantize8_down_le {x : ℚ} (h : 0 ≤ x) : quantize8_down x ≤ x := by
  unfold quantize8_down
  rw [decTrunc_nonneg_eq (by positivity)]
  rw [div_le_iff (by norm_num : (0:ℚ) < 100000000)]
  exact Int.floor_le (x * 100000000)

theorem quantize8_down_mono {x y : ℚ} (hx : 0 ≤ x) (hxy : x ≤ y) :
    quantize8_down x ≤ quantize8_down y := by
  unfold quantize8_down
  have hy : 0 ≤ y := le_trans hx hxy
  rw [decTrunc_nonneg_eq (by positivity), decTrunc_nonneg_eq (by positivity)]
  have hfl : ⌊x * 100000000⌋ ≤ ⌊y * 100000000⌋ := Int.floor_le_floor (by nlinarith)
  gcongr

theorem quantize8_mv : quantize8_down get_minimum_viable_amount = 600 / 100000000 := by
  decide

theorem dust_le_quantize8_mv : dust_limit_bsv ≤ quantize8_down get_minimum_viable_amount := by
  rw [quantize8_mv]; norm_num [dust_limit_bsv, BSV_DUST_LIMIT, SATOSHIS_PER_BSV]

/-! ### Facts about the feasibility resolution -/

theorem mv_le_effective_min (m : Option ℚ) :
    get_minimum_viable_amount ≤ effective_min_of m := le_max_right _ _

/-- Python truthiness folds `Decimal(0)` into the `None` default, which agrees
with plain `max` against the viable minimum. -/
theorem effective_min_of_eq (m : Option ℚ) :
    effective_min_of m = max (m.getD get_minimum_viable_amount) get_minimum_viable_amount := by
  match m with
  | none => rfl
  | some mm =>
    by_cases h : mm = 0
    · subst h
      simp [effective_min_of, le_of_lt mv_pos]
    · simp [effective_min_of, h]

theorem validate_feasible_snd {t : ℚ} {c : ℤ} {m : Option ℚ}
    (h : (validate_distribution_feasibility t c m).1 = true) :
    (validate_distribution_feasibility t c m).2 = c := by
  simp only [validate_distribution_feasibility] at h ⊢
  split at h
  · simp at h
  · rename_i hcond
    rw [if_neg hcond]

theorem validate_infeasible_snd {t : ℚ} {c : ℤ} {m : Option ℚ}
    (h : (validate_distribution_feasibility t c m).1 = false) :
    (validate_distribution_feasibility t c m).2 =
      decTrunc (t / get_minimum_viable_amount) := by
  simp only [validate_distribution_feasibility] at h ⊢
  split at h
  · rename_i hcond
    rw [if_pos hcond]
    simp [calculate_optimal_address_count]
  · simp at h

theorem validate_feasible_bound {t : ℚ} {c : ℤ} {m : Option ℚ}
    (h : (validate_distribution_feasibility t c m).1 = true) :
    effective_min_of m * (c : ℚ) ≤ t := by
  simp only [validate_distribution_feasibility] at h
  split at h
  · simp at h
  · rename_i hcond
    exact le_of_not_lt hcond

theorem validate_infeasible_bound {t : ℚ} {c : ℤ} {m : Option ℚ}
    (h : (validate_distribution_feasibility t c m).1 = false) :
    t < effective_min_of m * (c : ℚ) := by
  simp only [validate_distribution_feasibility] at h
  split at h
  · rename_i hcond
    exact hcond
  · simp at h

/-- When the truncated optimal count is at least `1`, the minimum viable
amount times that count is at most the total. -/
theorem mv_mul_decTrunc_le {t : ℚ}
    (h : 1 ≤ decTrunc (t / get_minimum_viable_amount)) :
    get_minimum_viable_amount * ((decTrunc (t / get_minimum_viable_amount) : ℤ) : ℚ) ≤ t := by
  set y := t / get_minimum_viable_amount with hy
  by_cases hpos : 0 ≤ y
  · rw [decTrunc_nonneg_eq hpos]
    have h1 : (⌊y⌋ : ℚ) ≤ y := Int.floor_le y
    have h2 : get_minimum_viable_amount * (⌊y⌋ : ℚ) ≤ get_minimum_viable_amount * y :=
      mul_le_mul_of_nonneg_left h1 (le_of_lt mv_pos)
    have h3 : get_minimum_viable_amount * y = t := by
      rw [hy, mul_comm, div_mul_cancel₀]
      exact ne_of_gt mv_pos
    linarith
  · exfalso
    rw [decTrunc_eq, if_neg hpos] at h
    have hy0 : y ≤ (((0:ℤ)):ℚ) := by push_cast; linarith [lt_of_not_le hpos]
    have h0 : ⌈y⌉ ≤ 0 := Int.ceil_le.mpr hy0
    omega

/-- The central resolution fact: whenever a feasibility resolution yields a
count of at least `1`, the minimum viable amount times the resolved count is
bounded by the total amount (in the feasible branch because the effective
minimum dominates the viable minimum; in the infeasible branch because the
suggested count is the truncation of `total / minViable`). -/
theorem mv_mul_resolved_le {t : ℚ} {c : ℤ} {m : Option ℚ}
    (h : 1 ≤ (validate_distribution_feasibility t c m).2) :
    get_minimum_viable_amount * (((validate_distribution_feasibility t c m).2 : ℤ) : ℚ) ≤ t := by
  by_cases hf : (validate_distribution_feasibility t c m).1 = true
  · have hsnd := validate_feasible_snd hf
    rw [hsnd] at h ⊢
    have hcond := validate_feasible_bound hf
    have hc0 : (0:ℚ) ≤ (c : ℚ) := by exact_mod_cast le_trans zero_le_one (by exact_mod_cast h)
    have := mul_le_mul_of_nonneg_right (mv_le_effective_min m) hc0
    linarith
  · have hf' : (validate_distribution_feasibility t c m).1 = false := by
      simpa using hf
    have hsnd := validate_infeasible_snd hf'
    rw [hsnd] at h ⊢
    exact mv_mul_decTrunc_le h

theorem total_pos_of_resolved_pos {t : ℚ} {c : ℤ} {m : Option ℚ}
    (h : 1 ≤ (validate_distribution_feasibility t c m).2) : 0 < t := by
  have h1 := mv_mul_resolved_le h
  have h2 : (1:ℚ) ≤ (((validate_distribution_feasibility t c m).2 : ℤ) : ℚ) := by
    exact_mod_cast h
  nlinarith [mv_pos]

theorem mv_le_avg_of_resolved_pos {t : ℚ} {c : ℤ} {m : Option ℚ}
    (h : 1 ≤ (validate_distribution_feasibility t c m).2) :
    get_minimum_viable_amount ≤ t / (((validate_distribution_feasibility t c m).2 : ℤ) : ℚ) := by
  have h1 := mv_mul_resolved_le h
  have h2 : (0:ℚ) < (((validate_distribution_feasibility t c m).2 : ℤ) : ℚ) := by
    exact_mod_cast lt_of_lt_of_le zero_lt_one h
  rw [le_div_iff h2]
  linarith [h1]

/-! ### Structure of the equal distribution -/

/-- Full description of a successful run of `distribute_amounts_equal`: the
result is the truncated share in every position, with the truncation
remainder (which is nonnegative) added to the first entry. -/
theorem distribute_equal_eq {t : ℚ} {c : ℤ}
    (h : 1 ≤ (validate_distribution_feasibility t c none).2) :
    ∃ share rem : ℚ,
      share = quantize8_down (t / ((validate_distribution_feasibility t c none).2 : ℚ)) ∧
      rem = t - ((validate_distribution_feasibility t c none).2 : ℚ) * share ∧
      0 ≤ rem ∧
      distribute_amounts_equal t c =
        some ((share + rem) ::
            List.replicate ((validate_distribution_feasibility t c none).2.toNat - 1) share,
          (validate_distribution_feasibility t c none).2) := by
  have ht := total_pos_of_resolved_pos h
  set ac := (validate_distribution_feasibility t c none).2 with hacdef
  set share := quantize8_down (t / (ac : ℚ)) with hsharedef
  have hac1 : (1:ℚ) ≤ (ac:ℚ) := by exact_mod_cast h
  have hacpos : (0:ℚ) < (ac:ℚ) := lt_of_lt_of_le zero_lt_one hac1
  have hacne : ac ≠ 0 := by
    have : (0:ℤ) < ac := lt_of_lt_of_le zero_lt_one h
    omega
  have htoNat : ((ac.toNat : ℕ) : ℚ) = (ac : ℚ) := by
    have h2 : (ac.toNat : ℤ) = ac := Int.toNat_of_nonneg (by omega)
    exact_mod_cast h2
  have hsum : (List.replicate ac.toNat share).sum = (ac:ℚ) * share := by
    rw [List.sum_replicate, nsmul_eq_mul, htoNat]
  have hshare_le : (ac:ℚ) * share ≤ t := by
    have h0 : 0 ≤ t / (ac:ℚ) := le_of_lt (div_pos ht hacpos)
    have h1 := quantize8_down_le h0
    calc (ac:ℚ) * share ≤ (ac:ℚ) * (t / (ac:ℚ)) := by
          rw [hsharedef]; exact mul_le_mul_of_nonneg_left h1 (le_of_lt hacpos)
      _ = t := by field_simp
  refine ⟨share, t - (ac:ℚ) * share, rfl, rfl, by linarith, ?_⟩
  have hn : ac.toNat - 1 + 1 = ac.toNat := by omega
  simp only [distribute_amounts_equal]
  rw [if_neg hacne]
  rw [← hacdef, ← hsharedef]
  rw [← hn, List.replicate_succ, List.sum_cons]
  have hsum2 : share + (List.replicate (ac.toNat - 1) share).sum = (ac:ℚ) * share := by
    have := hsum
    rw [← hn, List.replicate_succ, List.sum_cons] at this
    exact this
  rw [hsum2]
  by_cases hrem : t - (ac:ℚ) * share > 0
  · rw [if_pos hrem, Nat.add_sub_cancel]
  · rw [if_neg hrem]
    have hzero : t - (ac:ℚ) * share = 0 := le_antisymm (by linarith) (by linarith)
    rw [hzero, add_zero, Nat.add_sub_cancel]

/-! ### Claim theorems: feasibility validator -/

/-- C6: `validate_distribution_feasibility(total, count, minAmount)` reports
infeasible exactly when `max(minAmount, minViableAmount()) * count > total`
(with `minAmount` defaulting to the viable minimum, which also absorbs the
Python-falsy `Decimal(0)`), and whenever it reports infeasible its suggested
count equals `calculate_optimal_address_count(total)`, which ignores the
requested count; the function is total (it never raises). -/
theorem C6_validate_feasibility_spec (total : ℚ) (count : ℤ) (min_amount : Option ℚ) :
    ((validate_distribution_feasibility total count min_amount).1 = false ↔
      max (min_amount.getD get_minimum_viable_amount) get_minimum_viable_amount *
        (count : ℚ) > total) ∧
    (validate_distribution_feasibility total count min_amount).2 =
      (if (validate_distribution_feasibility total count min_amount).1 = false
       then calculate_optimal_address_count total none
       else count) := by
  constructor
  · constructor
    · intro hfalse
      have h1 := validate_infeasible_bound hfalse
      rw [effective_min_of_eq] at h1
      exact h1
    · intro hgt
      by_cases hf : (validate_distribution_feasibility total count min_amount).1 = false
      · exact hf
      · exfalso
        have h1 := validate_feasible_bound (by simpa using hf)
        rw [effective_min_of_eq] at h1
        linarith
  · by_cases hf : (validate_distribution_feasibility total count min_amount).1 = false
    · rw [if_pos hf, validate_infeasible_snd hf]
      rfl
    · rw [if_neg hf]
      exact validate_feasible_snd (by simpa using hf)

/-- C10 (implicit): whenever the validator reports feasible the suggested
count it returns is exactly the requested count, so the distribution
functions' unconditional substitution of the suggested count changes the
recipient count only in the infeasible case — witnessed here on
`distribute_amounts_equal`, whose returned used count equals the requested
count whenever the request was feasible (and at least 1). -/
theorem C10_feasible_suggested_is_requested (total : ℚ) (count : ℤ) (m : Option ℚ) :
    ((validate_distribution_feasibility total count m).1 = true →
      (validate_distribution_feasibility total count m).2 = count) ∧
    ((validate_distribution_feasibility total count none).1 = true → 1 ≤ count →
      ∀ r, distribute_amounts_equal total count = some r → r.2 = count) := by
  constructor
  · exact fun h => validate_feasible_snd h
  · intro hf hc r hr
    have hres : 1 ≤ (validate_distribution_feasibility total count none).2 := by
      rw [validate_feasible_snd hf]; exact hc
    obtain ⟨share, rem, _, _, _, heq⟩ := distribute_equal_eq hres
    rw [heq] at hr
    have := validate_feasible_snd hf
    cases hr
    simpa using this

/-- C9: `create_address_batches` raises its length-mismatch `ValueError`
(producing no batches) if and only if the address list and the amount list
have different lengths; on equal-length lists it always returns batches (no
other statement in the function can raise). -/
theorem C9_batches_length_mismatch {α : Type} (addresses : List α) (amounts : List ℚ)
    (max_bsv_per_batch : ℚ) (randomize : Bool)
    (shuffle : List (α × ℚ) → List (α × ℚ)) (factors : ℕ → ℚ) :
    create_address_batches addresses amounts max_bsv_per_batch randomize shuffle factors
      = none ↔ addresses.length ≠ amounts.length := by
  unfold create_address_batches
  split
  · rename_i hne
    simpa using hne
  · rename_i heq
    simpa using heq

/-- C8: `distribute_amounts_equal` returns `usedCount` copies of
`share = quantize(total/usedCount, 8 digits, truncating)` with the truncation
remainder `total - usedCount * share` added to the first entry (so all
entries except possibly the first are identical); concretely,
`distribute_amounts_equal(1.00000001, 4)` returns
`[0.25000001, 0.25, 0.25, 0.25]`. -/
theorem C8_equal_distribution_structure :
    (∀ (total : ℚ) (count : ℤ),
      1 ≤ (validate_distribution_feasibility total count none).2 →
      ∃ share rem : ℚ,
        share = quantize8_down
          (total / ((validate_distribution_feasibility total count none).2 : ℚ)) ∧
        rem = total -
          ((validate_distribution_feasibility total count none).2 : ℚ) * share ∧
        0 ≤ rem ∧
        distribute_amounts_equal total count =
          some ((share + rem) ::
              List.replicate
                ((validate_distribution_feasibility total count none).2.toNat - 1) share,
            (validate_distribution_feasibility total count none).2)) ∧
    distribute_amounts_equal (100000001 / 100000000) 4 =
      some ([25000001 / 100000000, 1 / 4, 1 / 4, 1 / 4], 4) := by
  constructor
  · exact fun total count h => distribute_equal_eq h
  · decide

/-- Witness for C8: the general structure statement instantiated at
`total = 1.00000001`, `count = 4`. -/
theorem C8_equal_distribution_structure_witness :
    ∃ share rem : ℚ,
      share = quantize8_down
        ((100000001 / 100000000 : ℚ) /
          ((validate_distribution_feasibility (100000001 / 100000000) 4 none).2 : ℚ)) ∧
      rem = (100000001 / 100000000 : ℚ) -
        ((validate_distribution_feasibility (100000001 / 100000000) 4 none).2 : ℚ) * share ∧
      0 ≤ rem ∧
      distribute_amounts_equal (100000001 / 100000000) 4 =
        some ((share + rem) ::
            List.replicate
              ((validate_distribution_feasibility (100000001 / 100000000) 4 none).2.toNat - 1)
              share,
          (validate_distribution_feasibility (100000001 / 100000000) 4 none).2) :=
  C8_equal_distribution_structure.1 (100000001 / 100000000) 4 (by decide)

/-! ### Structure of the random distributions -/

theorem random_fill_snd (min_amount max_amount : ℚ) (factors : ℕ → ℚ) :
    ∀ (n idx : ℕ) (r : ℚ),
      (random_fill min_amount max_amount factors idx n r).2 =
        r - (random_fill min_amount max_amount factors idx n r).1.sum := by
  intro n
  induction n with
  | zero => intro idx r; simp [random_fill]
  | succ k ih =>
      intro idx r
      simp only [random_fill, List.sum_cons]
      rw [ih]
      ring

theorem reclaim_last_sum (min_amount needed : ℚ) :
    ∀ (l l' : List ℚ), reclaim_last min_amount needed l = some l' →
      l'.sum = l.sum - needed := by
  intro l
  induction l with
  | nil => intro l' h; simp [reclaim_last] at h
  | cons a rest ih =>
      intro l' h
      rw [reclaim_last] at h
      split at h
      · rename_i rest_mod hrec
        injection h with h
        subst h
        rw [List.sum_cons, List.sum_cons, ih rest_mod hrec]
        ring
      · rename_i hrec
        split at h
        · injection h with h
          subst h
          rw [List.sum_cons, List.sum_cons]
          ring
        · cases h

/-- Entries kept by the reclaim scan either come from the original list or
strictly exceed the clamped minimum (the one modified entry had
`amounts[i] > min_amount + needed`). -/
theorem reclaim_last_entries (min_amount needed : ℚ) :
    ∀ (l l' : List ℚ), reclaim_last min_amount needed l = some l' →
      ∀ x ∈ l', x ∈ l ∨ min_amount < x := by
  intro l
  induction l with
  | nil => intro l' h; simp [reclaim_last] at h
  | cons a rest ih =>
      intro l' h x
      rw [reclaim_last] at h
      split at h
      · rename_i rest_mod hrec
        injection h with h
        subst h
        intro hx
        rcases List.mem_cons.mp hx with hx | hx
        · left; exact List.mem_cons.mpr (Or.inl hx)
        · rcases ih rest_mod hrec x hx with h1 | h1
          · left; exact List.mem_cons.mpr (Or.inr h1)
          · right; exact h1
      · rename_i hrec
        split at h
        · rename_i hgt
          injection h with h
          subst h
          intro hx
          rcases List.mem_cons.mp hx with hx | hx
          · right; subst hx; linarith
          · left; exact List.mem_cons.mpr (Or.inr hx)
        · cases h

/-- The common draw expression of both loops: allocate the clamped minimum on
a collapsed range, otherwise a truncated convex combination.  Lower bound. -/
theorem draw_amount_ge {mA amax d : ℚ} (hmA : 0 ≤ mA) (hd0 : 0 ≤ d) :
    quantize8_down mA ≤
      (if amax ≤ mA then mA else quantize8_down (mA + (amax - mA) * d)) := by
  split
  · exact quantize8_down_le hmA
  · rename_i h
    push_neg at h
    exact quantize8_down_mono hmA (by nlinarith)

/-- The common draw expression of both loops: upper bound, provided both the
clamped minimum and the effective maximum fit under `bound`. -/
theorem draw_amount_le {mA amax bound d : ℚ} (hd0 : 0 ≤ d) (hd1 : d ≤ 1)
    (hmA : 0 ≤ mA) (hminb : mA ≤ bound) (hamaxb : amax ≤ bound) :
    (if amax ≤ mA then mA else quantize8_down (mA + (amax - mA) * d)) ≤ bound := by
  split
  · exact hminb
  · rename_i h
    push_neg at h
    have harg : 0 ≤ mA + (amax - mA) * d := by nlinarith
    have h1 := quantize8_down_le harg
    nlinarith

/-- Each non-final draw of `distribute_amounts_random` allocates at least the
truncated clamped minimum. -/
theorem random_step_amount_ge {mA xA r d : ℚ} {ra : ℕ}
    (hmA : 0 ≤ mA) (hd0 : 0 ≤ d) :
    quantize8_down mA ≤ random_step_amount mA xA r ra d := by
  simp only [random_step_amount]
  exact draw_amount_ge hmA hd0

/-- Each non-final draw of `distribute_amounts_random` leaves at least
`min_amount` behind for each recipient still to fill. -/
theorem random_step_amount_le {mA xA r d : ℚ} {ra : ℕ}
    (hmA : 0 < mA) (hd0 : 0 ≤ d) (hd1 : d ≤ 1)
    (hinv : mA * ((ra : ℚ) + 1) ≤ r) :
    random_step_amount mA xA r ra d ≤ r - mA * (ra : ℚ) := by
  simp only [random_step_amount]
  exact draw_amount_le hd0 hd1 (le_of_lt hmA) (by linarith) (min_le_right _ _)

theorem random_fill_succ (mA xA : ℚ) (f : ℕ → ℚ) (idx k : ℕ) (r : ℚ) :
    random_fill mA xA f idx (k + 1) r =
      (random_step_amount mA xA r (k + 1) (f idx) ::
        (random_fill mA xA f (idx + 1) k
          (r - random_step_amount mA xA r (k + 1) (f idx))).1,
       (random_fill mA xA f (idx + 1) k
          (r - random_step_amount mA xA r (k + 1) (f idx))).2) := rfl

/-- As long as the clamped minimum times the resolved count fits in the
total, the running remainder of the bounded-random loop never drops below
`min_amount` times the number of recipients still to fill (plus one for the
final recipient); in particular the final residual is at least `min_amount`. -/
theorem random_fill_final_ge {mA xA : ℚ} {f : ℕ → ℚ}
    (hf : ∀ i, 0 ≤ f i ∧ f i < 1) (hmA : 0 < mA) :
    ∀ (n idx : ℕ) (r : ℚ), mA * ((n : ℚ) + 1) ≤ r →
      mA ≤ (random_fill mA xA f idx n r).2 := by
  intro n
  induction n with
  | zero =>
      intro idx r hinv
      simp only [random_fill]
      push_cast at hinv
      linarith
  | succ k ih =>
      intro idx r hinv
      rw [random_fill_succ]
      apply ih
      have hle : random_step_amount mA xA r (k + 1) (f idx) ≤ r - mA * ((k : ℚ) + 1) := by
        have h1 := @random_step_amount_le mA xA r (f idx) (k + 1)
          hmA (hf idx).1 (hf idx).2.le (by push_cast; push_cast at hinv; linarith)
        push_cast at h1
        linarith
      push_cast
      linarith

theorem random_fill_entries_ge {mA xA : ℚ} {f : ℕ → ℚ}
    (hf : ∀ i, 0 ≤ f i ∧ f i < 1) (hmA : 0 ≤ mA) :
    ∀ (n idx : ℕ) (r : ℚ) (x : ℚ), x ∈ (random_fill mA xA f idx n r).1 →
      quantize8_down mA ≤ x := by
  intro n
  induction n with
  | zero => intro idx r x hx; simp [random_fill] at hx
  | succ k ih =>
      intro idx r x hx
      rw [random_fill_succ] at hx
      rcases List.mem_cons.mp hx with hx | hx
      · subst hx
        exact random_step_amount_ge hmA (hf idx).1
      · exact ih _ _ _ hx

/-- A successful `distribute_amounts_random` run always sums exactly to the
total: the final entry is the residual, and the reclaim step moves value
without creating or destroying it. -/
theorem random_sum {t : ℚ} {c : ℤ} {mA xA : ℚ} {f : ℕ → ℚ}
    (h : (random_used_params t c mA xA).2.1 ≠ 0) :
    ∃ r, distribute_amounts_random t c mA xA f = some r ∧ r.1.sum = t ∧
      r.2 = (random_used_params t c mA xA).2.1 := by
  simp only [distribute_amounts_random]
  rw [if_neg h]
  set p := random_used_params t c mA xA with hp
  set fill := random_fill p.1 p.2.2 f 0 (p.2.1 - 1).toNat t with hfill
  have hsnd := random_fill_snd p.1 p.2.2 f (p.2.1 - 1).toNat 0 t
  rw [← hfill] at hsnd
  by_cases hlow : fill.2 < get_minimum_viable_amount
  · rw [if_pos hlow]
    cases hrec : reclaim_last p.1 (get_minimum_viable_amount - fill.2) fill.1 with
    | some amounts_mod =>
        refine ⟨_, rfl, ?_, rfl⟩
        have hsum := reclaim_last_sum _ _ _ _ hrec
        simp only [List.sum_append, List.sum_cons, List.sum_nil, hsum]
        rw [hsnd]
        ring
    | none =>
        refine ⟨_, rfl, ?_, rfl⟩
        simp only [List.sum_append, List.sum_cons, List.sum_nil]
        rw [hsnd]
        ring
  · rw [if_neg hlow]
    refine ⟨_, rfl, ?_, rfl⟩
    simp only [List.sum_append, List.sum_cons, List.sum_nil]
    rw [hsnd]
    ring

/-- Each non-final smart draw allocates at least the truncated clamped
minimum. -/
theorem smart_step_amount_ge {mA xA r d : ℚ} {ra : ℕ}
    (hmA : 0 ≤ mA) (hd0 : 0 ≤ d) :
    quantize8_down mA ≤ smart_step_amount mA xA r ra d := by
  simp only [smart_step_amount]
  split
  · exact draw_amount_ge hmA hd0
  · exact draw_amount_ge hmA hd0

/-- Each non-final smart draw leaves at least `min_amount` behind for each
recipient still to fill. -/
theorem smart_step_amount_le {mA xA r d : ℚ} {ra : ℕ}
    (hmA : 0 < mA) (hd0 : 0 ≤ d) (hd1 : d ≤ 1)
    (hinv : mA * (ra : ℚ) ≤ r) :
    smart_step_amount mA xA r ra d ≤ r - mA * ((ra : ℚ) - 1) := by
  have hminb : mA ≤ r - mA * ((ra : ℚ) - 1) := by nlinarith
  simp only [smart_step_amount]
  split
  · exact draw_amount_le hd0 hd1 (le_of_lt hmA) hminb
      (le_trans (min_le_right _ _) (min_le_left _ _))
  · exact draw_amount_le hd0 hd1 (le_of_lt hmA) hminb (min_le_right _ _)

theorem smart_fill_succ (mA xA : ℚ) (f : ℕ → ℚ) (idx k : ℕ) (r : ℚ) :
    smart_fill mA xA f idx (k + 2) r =
      smart_step_amount mA xA r (k + 2) (f idx) ::
        smart_fill mA xA f (idx + 1) (k + 1)
          (r - smart_step_amount mA xA r (k + 2) (f idx)) := rfl

/-- Full structure of the smart loop for a positive recipient count: a block
of non-final entries, each at least the truncated clamped minimum, followed
by one final entry at or above the viable minimum. -/
theorem smart_fill_split {mA xA : ℚ} {f : ℕ → ℚ}
    (hf : ∀ i, 0 ≤ f i ∧ f i < 1) (hmA : 0 ≤ mA) :
    ∀ (n idx : ℕ) (r : ℚ), 1 ≤ n →
      ∃ (l : List ℚ) (x : ℚ),
        smart_fill mA xA f idx n r = l ++ [x] ∧
        (∀ y ∈ l, quantize8_down mA ≤ y) ∧
        get_minimum_viable_amount ≤ x := by
  intro n
  induction n with
  | zero => intro idx r h1; omega
  | succ k ih =>
      intro idx r h1
      match k with
      | 0 =>
          refine ⟨[], if r < get_minimum_viable_amount then get_minimum_viable_amount else r,
            by simp [smart_fill], by simp, ?_⟩
          split
          · exact le_rfl
          · rename_i hge; push_neg at hge; exact hge
      | k + 1 =>
          obtain ⟨l, x, heq, hl, hx⟩ :=
            ih (idx + 1) (r - smart_step_amount mA xA r (k + 2) (f idx)) (by omega)
          refine ⟨smart_step_amount mA xA r (k + 2) (f idx) :: l, x, ?_, ?_, hx⟩
          · rw [smart_fill_succ, heq]
            rfl
          · intro y hy
            rcases List.mem_cons.mp hy with hy | hy
            · subst hy
              exact smart_step_amount_ge hmA (hf idx).1
            · exact hl y hy

/-- The exact-sum invariant of the smart loop: when the clamped minimum times
the recipients still to fill fits in the remaining amount, the final clamp
never fires and the produced amounts sum exactly to the remaining amount. -/
theorem smart_fill_sum {mA xA : ℚ} {f : ℕ → ℚ}
    (hf : ∀ i, 0 ≤ f i ∧ f i < 1) (hmv : get_minimum_viable_amount ≤ mA) :
    ∀ (n idx : ℕ) (r : ℚ), 1 ≤ n → mA * (n : ℚ) ≤ r →
      (smart_fill mA xA f idx n r).sum = r := by
  intro n
  induction n with
  | zero => intro idx r h1 _; omega
  | succ k ih =>
      intro idx r h1 hinv
      match k with
      | 0 =>
          have hge : get_minimum_viable_amount ≤ r := by
            push_cast at hinv
            linarith
          simp only [smart_fill]
          rw [if_neg (not_lt.mpr hge)]
          simp
      | k + 1 =>
          have hmA_pos : 0 < mA := lt_of_lt_of_le mv_pos hmv
          rw [smart_fill_succ, List.sum_cons]
          have hle : smart_step_amount mA xA r (k + 2) (f idx) ≤ r - mA * ((k : ℚ) + 1) := by
            have h1 := @smart_step_amount_le mA xA r (f idx) (k + 2)
              hmA_pos (hf idx).1 (hf idx).2.le (by push_cast; push_cast at hinv; linarith)
            push_cast at h1
            linarith
          rw [ih (idx + 1) (r - smart_step_amount mA xA r (k + 2) (f idx)) (by omega)
            (by push_cast; linarith)]
          ring

theorem smart_fill_ne_nil (mA xA : ℚ) (f : ℕ → ℚ) (idx n : ℕ) (r : ℚ)
    (h : 1 ≤ n) : smart_fill mA xA f idx n r ≠ [] := by
  match n with
  | 1 => simp [smart_fill]
  | k + 2 => simp [smart_fill]

/-! ### The optimal-bounds pipeline -/

/-- The conditional substitution in `calculate_optimal_random_bounds` agrees
with the validator's second component (feasible runs return the requested
count unchanged). -/
theorem bounds_resolved_count (t : ℚ) (c : ℤ) :
    (if (validate_distribution_feasibility t c none).1 then c
     else (validate_distribution_feasibility t c none).2) =
      (validate_distribution_feasibility t c none).2 := by
  by_cases h : (validate_distribution_feasibility t c none).1 = true
  · rw [if_pos h, validate_feasible_snd h]
  · rw [if_neg (by simpa using h)]

/-- A fitting caller minimum at or above the viable minimum validates as
feasible with the requested count. -/
theorem validate_of_fit {t : ℚ} {c : ℤ} {m : ℚ}
    (hm : get_minimum_viable_amount ≤ m) (hfit : ¬ (m * (c : ℚ) > t)) :
    validate_distribution_feasibility t c (some m) = (true, c) := by
  have hm0 : ¬ (m = 0) := ne_of_gt (lt_of_lt_of_le mv_pos hm)
  have heff : effective_min_of (some m) = m := by
    simp only [effective_min_of, if_neg hm0]
    exact max_eq_left hm
  simp only [validate_distribution_feasibility, heff]
  rw [if_neg hfit]

/-- On the inputs produced by `calculate_optimal_random_bounds` (resolved
count at least `1`, so the viable minimum fits), none of the four corrective
passes of `_validate_and_adjust_bounds` fires: the bounds
`(max(minViable, avg/4), 1.75 * avg)` come back unchanged. -/
theorem adjust_bounds_noop {t : ℚ} {c : ℤ} (hc : 1 ≤ c)
    (hmvc : get_minimum_viable_amount * (c : ℚ) ≤ t) :
    _validate_and_adjust_bounds t c
        (max get_minimum_viable_amount (t / (c : ℚ) * (25 / 100)))
        (t / (c : ℚ) * (175 / 100)) (t / (c : ℚ)) =
      some (max get_minimum_viable_amount (t / (c : ℚ) * (25 / 100)),
        t / (c : ℚ) * (175 / 100)) := by
  have hcq : (1 : ℚ) ≤ (c : ℚ) := by exact_mod_cast hc
  have hcpos : (0 : ℚ) < (c : ℚ) := by linarith
  have ht : 0 < t := by nlinarith [mv_pos]
  set avg := t / (c : ℚ) with havg
  have havgc : avg * (c : ℚ) = t := by rw [havg]; field_simp
  have havg_pos : 0 < avg := div_pos ht hcpos
  have hmv_avg : get_minimum_viable_amount ≤ avg := by
    rw [havg, le_div_iff hcpos]; linarith
  have hc1 : ¬ (max get_minimum_viable_amount (avg * (25 / 100)) * (c : ℚ) > t) := by
    push_neg
    rw [max_mul_of_nonneg _ _ (le_of_lt hcpos)]
    apply max_le
    · linarith
    · nlinarith
  have hc2 : ¬ (t - avg * (175 / 100) * ((c : ℚ) - 1) > avg * (175 / 100) * 2) := by
    push_neg
    nlinarith
  have hc3 : ¬ (max get_minimum_viable_amount (avg * (25 / 100)) * ((c : ℚ) - 1) ≥ t) := by
    push_neg
    rw [max_mul_of_nonneg _ _ (by linarith : (0 : ℚ) ≤ (c : ℚ) - 1)]
    apply max_lt
    · nlinarith [mv_pos]
    · nlinarith
  have hc4 : ¬ (avg * (175 / 100) ≤
      max get_minimum_viable_amount (avg * (25 / 100)) * (11 / 10)) := by
    push_neg
    rw [max_mul_of_nonneg _ _ (by norm_num : (0 : ℚ) ≤ (11 / 10 : ℚ))]
    apply max_lt
    · nlinarith
    · nlinarith
  simp only [_validate_and_adjust_bounds, if_neg hc1, Option.bind_eq_bind,
    Option.some_bind, if_neg hc2, if_neg hc3, if_neg hc4]

/-- Characterisation of `calculate_optimal_random_bounds` on a resolvable
request: the returned bounds are exactly `(max(minViable, avg/4), 1.75*avg)`
over the resolved count. -/
theorem optimal_bounds_eq {t : ℚ} {c : ℤ}
    (h : 1 ≤ (validate_distribution_feasibility t c none).2) :
    calculate_optimal_random_bounds t c =
      some (max get_minimum_viable_amount
          (t / ((validate_distribution_feasibility t c none).2 : ℚ) * (25 / 100)),
        t / ((validate_distribution_feasibility t c none).2 : ℚ) * (175 / 100),
        (validate_distribution_feasibility t c none).2) := by
  have ht := total_pos_of_resolved_pos h
  have hne : (validate_distribution_feasibility t c none).2 ≠ 0 := by omega
  have hcpos : (0 : ℚ) < ((validate_distribution_feasibility t c none).2 : ℚ) := by
    exact_mod_cast lt_of_lt_of_le zero_lt_one h
  have havg_pos : 0 < t / ((validate_distribution_feasibility t c none).2 : ℚ) :=
    div_pos ht hcpos
  simp only [calculate_optimal_random_bounds, bounds_resolved_count]
  rw [if_neg hne]
  rw [adjust_bounds_noop h (mv_mul_resolved_le h)]
  simp only [Option.bind_eq_bind, Option.some_bind]
  rw [if_neg (ne_of_gt havg_pos)]

/-- The smart engine driven by the optimal bounds: the resolved count is
preserved, the amounts are non-empty, and they sum exactly to the total. -/
theorem optimal_sum {t : ℚ} {c : ℤ} {f : ℕ → ℚ}
    (hf : ∀ i, 0 ≤ f i ∧ f i < 1)
    (h : 1 ≤ (validate_distribution_feasibility t c none).2) :
    ∃ l, distribute_amounts_random_optimal t c f =
        some (l, (validate_distribution_feasibility t c none).2) ∧ l.sum = t := by
  have ht := total_pos_of_resolved_pos h
  set rc := (validate_distribution_feasibility t c none).2 with hrc
  have hrcq : (1 : ℚ) ≤ (rc : ℚ) := by exact_mod_cast h
  have hrcpos : (0 : ℚ) < (rc : ℚ) := by linarith
  set avg := t / (rc : ℚ) with havg
  have havgc : avg * (rc : ℚ) = t := by rw [havg]; field_simp
  set minB := max get_minimum_viable_amount (avg * (25 / 100)) with hminB
  have hmvB : get_minimum_viable_amount ≤ minB := le_max_left _ _
  have hmvc : get_minimum_viable_amount * (rc : ℚ) ≤ t := mv_mul_resolved_le h
  have havg_pos : 0 < avg := div_pos ht hrcpos
  have hminB_mul : minB * (rc : ℚ) ≤ t := by
    rw [hminB, max_mul_of_nonneg _ _ (le_of_lt hrcpos)]
    apply max_le
    · exact hmvc
    · nlinarith
  have hsmart : distribute_amounts_random_smart t rc minB (avg * (175 / 100)) f =
      (smart_fill minB (avg * (175 / 100)) f 0 rc.toNat t, rc) := by
    simp only [distribute_amounts_random_smart]
    rw [max_eq_left hmvB, validate_of_fit hmvB (by push_neg; exact hminB_mul)]
  have hrcnat : 1 ≤ rc.toNat := by omega
  have hnatcast : ((rc.toNat : ℕ) : ℚ) = (rc : ℚ) := by
    have h2 : (rc.toNat : ℤ) = rc := Int.toNat_of_nonneg (by omega)
    exact_mod_cast h2
  have hsum : (smart_fill minB (avg * (175 / 100)) f 0 rc.toNat t).sum = t :=
    smart_fill_sum hf hmvB rc.toNat 0 t hrcnat (by rw [hnatcast]; exact hminB_mul)
  have hnil := smart_fill_ne_nil minB (avg * (175 / 100)) f 0 rc.toNat t hrcnat
  refine ⟨smart_fill minB (avg * (175 / 100)) f 0 rc.toNat t, ?_, hsum⟩
  simp only [distribute_amounts_random_optimal]
  rw [optimal_bounds_eq h]
  simp only [Option.bind_eq_bind, Option.some_bind, ← havg, ← hminB, ← hrc]
  rw [hsmart]
  cases hl : smart_fill minB (avg * (175 / 100)) f 0 rc.toNat t with
  | nil => exact absurd hl hnil
  | cons a as => simp [hl]

/-! ### Derived facts packaged per entry point -/

theorem equal_sum {t : ℚ} {c : ℤ}
    (h : 1 ≤ (validate_distribution_feasibility t c none).2) :
    ∃ r, distribute_amounts_equal t c = some r ∧ r.1.sum = t := by
  obtain ⟨share, rem, hs, hr, hnn, heq⟩ := distribute_equal_eq h
  refine ⟨_, heq, ?_⟩
  have hnat : (((validate_distribution_feasibility t c none).2.toNat - 1 : ℕ) : ℚ) =
      (((validate_distribution_feasibility t c none).2 : ℤ) : ℚ) - 1 := by
    have h1 : ((validate_distribution_feasibility t c none).2.toNat : ℤ) =
        (validate_distribution_feasibility t c none).2 := Int.toNat_of_nonneg (by omega)
    have h2 : 1 ≤ (validate_distribution_feasibility t c none).2.toNat := by omega
    have h4 : (((validate_distribution_feasibility t c none).2.toNat : ℕ) : ℚ) =
        (((validate_distribution_feasibility t c none).2 : ℤ) : ℚ) := by exact_mod_cast h1
    rw [Nat.cast_sub h2, Nat.cast_one, h4]
  simp only [List.sum_cons, List.sum_replicate, nsmul_eq_mul, hnat, hr]
  ring

theorem equal_entries {t : ℚ} {c : ℤ}
    (h : 1 ≤ (validate_distribution_feasibility t c none).2) :
    ∀ r, distribute_amounts_equal t c = some r →
      ∀ x ∈ r.1, dust_limit_bsv ≤ x := by
  obtain ⟨share, rem, hs, hr, hnn, heq⟩ := distribute_equal_eq h
  intro r hres x hx
  rw [heq] at hres
  injection hres with hres
  subst hres
  have hsh : dust_limit_bsv ≤ share := by
    rw [hs]
    calc dust_limit_bsv ≤ quantize8_down get_minimum_viable_amount := dust_le_quantize8_mv
      _ ≤ quantize8_down (t / ((validate_distribution_feasibility t c none).2 : ℚ)) :=
          quantize8_down_mono (le_of_lt mv_pos) (mv_le_avg_of_resolved_pos h)
  rcases List.mem_cons.mp hx with hx | hx
  · subst hx; linarith
  · rw [List.eq_of_mem_replicate hx]; exact hsh

/-- Structure of a successful `distribute_amounts_random` run: a block of
non-final entries at or above the dust limit, then a final residual entry,
which is at least the viable minimum whenever the clamped minimum times the
resolved count fits inside the total. -/
theorem random_result_split {t : ℚ} {c : ℤ} {mA xA : ℚ} {f : ℕ → ℚ}
    (hf : ∀ i, 0 ≤ f i ∧ f i < 1)
    (h : 1 ≤ (random_used_params t c mA xA).2.1) :
    ∃ l fin, distribute_amounts_random t c mA xA f =
        some (l ++ [fin], (random_used_params t c mA xA).2.1) ∧
      (∀ x ∈ l, dust_limit_bsv ≤ x) ∧
      ((random_used_params t c mA xA).1 * ((random_used_params t c mA xA).2.1 : ℚ) ≤ t →
        get_minimum_viable_amount ≤ fin) := by
  have hne : (random_used_params t c mA xA).2.1 ≠ 0 := by omega
  have hmv_min : get_minimum_viable_amount ≤ (random_used_params t c mA xA).1 :=
    le_max_right _ _
  have hmin_pos : 0 < (random_used_params t c mA xA).1 := lt_of_lt_of_le mv_pos hmv_min
  have hdust : dust_limit_bsv ≤ quantize8_down (random_used_params t c mA xA).1 :=
    le_trans dust_le_quantize8_mv (quantize8_down_mono (le_of_lt mv_pos) hmv_min)
  simp only [distribute_amounts_random]
  rw [if_neg hne]
  set p := random_used_params t c mA xA with hp
  set fill := random_fill p.1 p.2.2 f 0 (p.2.1 - 1).toNat t with hfill
  have hfillmem : ∀ x ∈ fill.1, dust_limit_bsv ≤ x := by
    intro x hx
    exact le_trans hdust (random_fill_entries_ge hf (le_of_lt hmin_pos) _ _ _ x hx)
  have hfeas_final : p.1 * ((p.2.1 : ℤ) : ℚ) ≤ t → get_minimum_viable_amount ≤ fill.2 := by
    intro hfit
    refine le_trans hmv_min ?_
    apply random_fill_final_ge hf hmin_pos
    have hnat : (((p.2.1 - 1).toNat : ℕ) : ℚ) = ((p.2.1 : ℤ) : ℚ) - 1 := by
      have h1 : ((p.2.1 - 1).toNat : ℤ) = p.2.1 - 1 := Int.toNat_of_nonneg (by omega)
      have h4 : (((p.2.1 - 1).toNat : ℕ) : ℚ) = ((p.2.1 - 1 : ℤ) : ℚ) := by exact_mod_cast h1
      rw [h4]
      push_cast
      ring
    rw [hnat]
    linarith
  by_cases hlow : fill.2 < get_minimum_viable_amount
  · rw [if_pos hlow]
    cases hrec : reclaim_last p.1 (get_minimum_viable_amount - fill.2) fill.1 with
    | some amounts_mod =>
        refine ⟨amounts_mod, fill.2 + (get_minimum_viable_amount - fill.2), rfl, ?_, ?_⟩
        · intro x hx
          rcases reclaim_last_entries _ _ _ _ hrec x hx with h1 | h1
          · exact hfillmem x h1
          · calc dust_limit_bsv ≤ get_minimum_viable_amount := dust_le_mv
              _ ≤ p.1 := hmv_min
              _ ≤ x := le_of_lt h1
        · intro _
          linarith
    | none =>
        refine ⟨fill.1, fill.2, rfl, hfillmem, ?_⟩
        intro hfit
        exact absurd (hfeas_final hfit) (not_le.mpr hlow)
  · rw [if_neg hlow]
    exact ⟨fill.1, fill.2, rfl, hfillmem, fun _ => not_lt.mp hlow⟩

/-! ### Claim theorems: exact sum, no-raise, bounds tightening, dust floor -/

/-- C1: for every total amount and requested count whose resolved recipient
count is at least 1, the amounts list returned by each of the three
distribution entry points — `distribute_amounts_equal`,
`distribute_amounts_random`, and (through its engine
`distribute_amounts_random_smart`) `distribute_amounts_random_optimal` —
sums to exactly the total amount, with zero tolerance, over the exact
8-decimal fixed-point arithmetic. -/
theorem C1_exact_sum :
    (∀ (total : ℚ) (count : ℤ),
        1 ≤ (validate_distribution_feasibility total count none).2 →
        ∃ r, distribute_amounts_equal total count = some r ∧ r.1.sum = total) ∧
    (∀ (total : ℚ) (count : ℤ) (min_amount max_amount : ℚ) (factors : ℕ → ℚ),
        1 ≤ (random_used_params total count min_amount max_amount).2.1 →
        ∃ r, distribute_amounts_random total count min_amount max_amount factors = some r ∧
          r.1.sum = total) ∧
    (∀ (total : ℚ) (count : ℤ) (factors : ℕ → ℚ),
        (∀ i, 0 ≤ factors i ∧ factors i < 1) →
        1 ≤ (validate_distribution_feasibility total count none).2 →
        ∃ r, distribute_amounts_random_optimal total count factors = some r ∧
          r.1.sum = total) := by
  refine ⟨fun total count h => equal_sum h, ?_, ?_⟩
  · intro total count mA xA f h
    obtain ⟨r, h1, h2, _⟩ := @random_sum total count mA xA f (by omega)
    exact ⟨r, h1, h2⟩
  · intro total count f hf h
    obtain ⟨l, h1, h2⟩ := optimal_sum hf h
    exact ⟨_, h1, h2⟩

/-- Witness for C1 at `total = 1`, `count = 4` (all three entry points). -/
theorem C1_exact_sum_witness :
    (∃ r, distribute_amounts_equal 1 4 = some r ∧ r.1.sum = 1) ∧
    (∃ r, distribute_amounts_random 1 4 (1 / 100) (1 / 2) (fun _ => 1 / 2) = some r ∧
      r.1.sum = 1) ∧
    (∃ r, distribute_amounts_random_optimal 1 4 (fun _ => 1 / 2) = some r ∧ r.1.sum = 1) :=
  ⟨C1_exact_sum.1 1 4 (by decide),
   C1_exact_sum.2.1 1 4 (1 / 100) (1 / 2) (fun _ => 1 / 2) (by decide),
   C1_exact_sum.2.2 1 4 (fun _ => 1 / 2) (fun i => by norm_num) (by decide)⟩

/-- C2 (amended): for every positive total amount and positive requested
count, each of `distribute_amounts_equal`, `distribute_amounts_random` and
`distribute_amounts_random_optimal` returns a result *provided its resolved
recipient count is at least 1*; when the total is so small that the count
resolves to 0, all three raise a division-by-zero instead of degrading (see
`C2_counterexample`). -/
theorem C2_no_raise_amended :
    (∀ (total : ℚ) (count : ℤ), 0 < total → 0 < count →
        1 ≤ (validate_distribution_feasibility total count none).2 →
        (distribute_amounts_equal total count).isSome = true) ∧
    (∀ (total : ℚ) (count : ℤ) (min_amount max_amount : ℚ) (factors : ℕ → ℚ),
        0 < total → 0 < count →
        1 ≤ (random_used_params total count min_amount max_amount).2.1 →
        (distribute_amounts_random total count min_amount max_amount factors).isSome
          = true) ∧
    (∀ (total : ℚ) (count : ℤ) (factors : ℕ → ℚ),
        (∀ i, 0 ≤ factors i ∧ factors i < 1) → 0 < total → 0 < count →
        1 ≤ (validate_distribution_feasibility total count none).2 →
        (distribute_amounts_random_optimal total count factors).isSome = true) := by
  refine ⟨?_, ?_, ?_⟩
  · intro total count _ _ h
    obtain ⟨r, h1, _⟩ := equal_sum h
    rw [h1]; rfl
  · intro total count mA xA f _ _ h
    obtain ⟨r, h1, _, _⟩ := @random_sum total count mA xA f (by omega)
    rw [h1]; rfl
  · intro total count f hf _ _ h
    obtain ⟨l, h1, _⟩ := optimal_sum hf h
    rw [h1]; rfl

/-- Witness for C2 (amended) at `total = 1`, `count = 4`. -/
theorem C2_no_raise_amended_witness :
    (distribute_amounts_equal 1 4).isSome = true ∧
    (distribute_amounts_random 1 4 (1 / 100) (1 / 2) (fun _ => 1 / 2)).isSome = true ∧
    (distribute_amounts_random_optimal 1 4 (fun _ => 1 / 2)).isSome = true :=
  ⟨C2_no_raise_amended.1 1 4 (by norm_num) (by norm_num) (by decide),
   C2_no_raise_amended.2.1 1 4 (1 / 100) (1 / 2) (fun _ => 1 / 2) (by norm_num)
     (by norm_num) (by decide),
   C2_no_raise_amended.2.2 1 4 (fun _ => 1 / 2) (fun i => by norm_num) (by norm_num)
     (by norm_num) (by decide)⟩

/-- Counterexample to C2 as stated: at `total = 0.00000001 BSV` (below the
viable minimum) and `count = 1`, the resolved count is 0 and all three entry
points raise (`Decimal` division by zero) instead of returning a result. -/
theorem C2_counterexample :
    0 < (1 / 100000000 : ℚ) ∧ 0 < (1 : ℤ) ∧
    (validate_distribution_feasibility (1 / 100000000) 1 none).2 = 0 ∧
    distribute_amounts_equal (1 / 100000000) 1 = none ∧
    distribute_amounts_random (1 / 100000000) 1 (1 / 100000000) (1 / 2) (fun _ => 0)
      = none ∧
    distribute_amounts_random_optimal (1 / 100000000) 1 (fun _ => 0) = none := by
  decide

/-- C3 (amended): in `distribute_amounts_random`, after clamping `minAmount`
and resolving the count, the caller-supplied `maxAmount` is tightened to
`1.8 *` the average exactly when `maxAmount` exceeds `2 *` the average
(`max_amount > avg_amount * 2` in the source — not, as the spec claims, when
the average exceeds `2 * maxAmount`); otherwise it is left unchanged. -/
theorem C3_max_tighten_amended (total : ℚ) (count : ℤ) (min_amount max_amount : ℚ)
    (h : (random_used_params total count min_amount max_amount).2.1 ≠ 0) :
    (random_used_params total count min_amount max_amount).2.2 =
      (if max_amount >
          2 * (total / ((random_used_params total count min_amount max_amount).2.1 : ℚ))
       then (18 / 10) *
          (total / ((random_used_params total count min_amount max_amount).2.1 : ℚ))
       else max_amount) := by
  simp only [random_used_params]
  by_cases hc : max_amount >
      total / (((validate_distribution_feasibility total count
        (some (max min_amount get_minimum_viable_amount))).2 : ℤ) : ℚ) * 2
  · rw [if_pos hc, if_pos (by linarith [hc])]
    ring
  · rw [if_neg hc, if_neg (by intro hcon; apply hc; linarith [hcon])]

/-- Witness for C3 (amended): at `total = 10`, `count = 10`,
`min = 0.5`, `max = 3` the tightening fires (`3 > 2 * 1`). -/
theorem C3_max_tighten_amended_witness :
    (random_used_params 10 10 (1 / 2) 3).2.2 =
      (if (3 : ℚ) > 2 * (10 / ((random_used_params 10 10 (1 / 2) 3).2.1 : ℚ))
       then (18 / 10) * (10 / ((random_used_params 10 10 (1 / 2) 3).2.1 : ℚ))
       else 3) :=
  C3_max_tighten_amended 10 10 (1 / 2) 3 (by decide)

/-- Counterexample to C3 as stated: at `total = 10`, `count = 10`,
`min = 0.5`, `max = 3`, the average `1` does *not* exceed `2 * maxAmount = 6`,
so the claim predicts `maxAmount` stays `3`; the code nevertheless tightens
it to `1.8`. -/
theorem C3_counterexample :
    (random_used_params 10 10 (1 / 2) 3).2.1 = 10 ∧
    ¬ ((10 : ℚ) / 10 > 2 * 3) ∧
    (random_used_params 10 10 (1 / 2) 3).2.2 = 9 / 5 ∧
    ((9 / 5 : ℚ) ≠ 3) := by decide

/-- C7 (amended): in every produced amounts list (resolved count at least 1,
draws in `[0,1)`), every entry except possibly the final one is at least the
dust limit; the final entry is at least the dust limit for
`distribute_amounts_equal`, at least 0 for `distribute_amounts_random_smart`
(the engine of `distribute_amounts_random_optimal`), and for
`distribute_amounts_random` it is nonnegative whenever the clamped minimum
times the resolved count fits inside the total — without that fit the final
entry can be negative (see `C7_counterexample`). -/
theorem C7_dust_floor_amended :
    (∀ (total : ℚ) (count : ℤ),
        1 ≤ (validate_distribution_feasibility total count none).2 →
        ∀ r, distribute_amounts_equal total count = some r →
          ∀ x ∈ r.1, dust_limit_bsv ≤ x) ∧
    (∀ (total : ℚ) (count : ℤ) (min_amount max_amount : ℚ) (factors : ℕ → ℚ),
        (∀ i, 0 ≤ factors i ∧ factors i < 1) →
        1 ≤ (random_used_params total count min_amount max_amount).2.1 →
        ∀ r, distribute_amounts_random total count min_amount max_amount factors
            = some r →
          (∀ x ∈ r.1.dropLast, dust_limit_bsv ≤ x) ∧
          ((random_used_params total count min_amount max_amount).1 *
              ((random_used_params total count min_amount max_amount).2.1 : ℚ) ≤ total →
            ∀ x ∈ r.1, 0 ≤ x)) ∧
    (∀ (total : ℚ) (count : ℤ) (min_amount max_amount : ℚ) (factors : ℕ → ℚ),
        (∀ i, 0 ≤ factors i ∧ factors i < 1) →
        1 ≤ (distribute_amounts_random_smart total count min_amount max_amount factors).2 →
        (∀ x ∈ (distribute_amounts_random_smart total count min_amount max_amount
            factors).1.dropLast, dust_limit_bsv ≤ x) ∧
        (∀ x, (distribute_amounts_random_smart total count min_amount max_amount
            factors).1.getLast? = some x → 0 ≤ x)) := by
  refine ⟨fun total count h => equal_entries h, ?_, ?_⟩
  · intro total count mA xA f hf h r hr
    obtain ⟨l, fin, heq, hl, hfin⟩ := random_result_split hf h
    rw [heq] at hr
    injection hr with hr
    subst hr
    constructor
    · intro x hx
      rw [List.dropLast_concat] at hx
      exact hl x hx
    · intro hfit x hx
      rcases List.mem_append.mp hx with hx | hx
      · linarith [hl x hx, dust_pos]
      · have : x = fin := by simpa using hx
        subst this
        linarith [hfin hfit, mv_pos]
  · intro total count mA xA f hf h
    have hres : distribute_amounts_random_smart total count mA xA f =
        (smart_fill (max mA get_minimum_viable_amount) xA f 0
          ((validate_distribution_feasibility total count
            (some (max mA get_minimum_viable_amount))).2).toNat total,
         (validate_distribution_feasibility total count
            (some (max mA get_minimum_viable_amount))).2) := rfl
    rw [hres] at h ⊢
    dsimp only at h ⊢
    have hmv : get_minimum_viable_amount ≤ max mA get_minimum_viable_amount :=
      le_max_right _ _
    have hnat : 1 ≤ ((validate_distribution_feasibility total count
        (some (max mA get_minimum_viable_amount))).2).toNat := by omega
    obtain ⟨l, x, heq, hl, hx⟩ := @smart_fill_split (max mA get_minimum_viable_amount)
      xA f hf (le_of_lt (lt_of_lt_of_le mv_pos hmv)) _ 0 total hnat
    rw [heq]
    constructor
    · intro y hy
      rw [List.dropLast_concat] at hy
      have hq : dust_limit_bsv ≤ quantize8_down (max mA get_minimum_viable_amount) :=
        le_trans dust_le_quantize8_mv (quantize8_down_mono (le_of_lt mv_pos) hmv)
      exact le_trans hq (hl y hy)
    · intro y hy
      rw [List.getLast?_concat] at hy
      injection hy with hy
      subst hy
      linarith [hx, mv_pos]

/-- Witness for C7 (amended) at benign inputs. -/
theorem C7_dust_floor_amended_witness :
    (∀ r, distribute_amounts_equal 1 4 = some r → ∀ x ∈ r.1, dust_limit_bsv ≤ x) ∧
    (∀ r, distribute_amounts_random 1 4 (1 / 100) (1 / 2) (fun _ => 1 / 2) = some r →
      (∀ x ∈ r.1.dropLast, dust_limit_bsv ≤ x) ∧
      ((random_used_params 1 4 (1 / 100) (1 / 2)).1 *
          ((random_used_params 1 4 (1 / 100) (1 / 2)).2.1 : ℚ) ≤ 1 →
        ∀ x ∈ r.1, 0 ≤ x)) ∧
    ((∀ x ∈ (distribute_amounts_random_smart 1 4 (1 / 100) (1 / 2)
        (fun _ => 1 / 2)).1.dropLast, dust_limit_bsv ≤ x) ∧
      (∀ x, (distribute_amounts_random_smart 1 4 (1 / 100) (1 / 2)
        (fun _ => 1 / 2)).1.getLast? = some x → 0 ≤ x)) :=
  ⟨C7_dust_floor_amended.1 1 4 (by decide),
   C7_dust_floor_amended.2.1 1 4 (1 / 100) (1 / 2) (fun _ => 1 / 2)
     (fun i => by norm_num) (by decide),
   C7_dust_floor_amended.2.2 1 4 (1 / 100) (1 / 2) (fun _ => 1 / 2)
     (fun i => by norm_num) (by decide)⟩

/-- Counterexample to C7 as stated: with `total = 0.00002`, `count = 1`,
`min = 0.000021`, `max = 0.00005`, the resolved count is 3 (at least 1), yet
the final entry of `distribute_amounts_random` is `-0.000022 < 0`: the
caller minimum exceeds what the reduced count supports, every draw falls
back to the minimum, and the backward reclaim finds no entry with slack. -/
theorem C7_counterexample :
    1 ≤ (random_used_params (2 / 100000) 1 (21 / 1000000) (5 / 100000)).2.1 ∧
    distribute_amounts_random (2 / 100000) 1 (21 / 1000000) (5 / 100000) (fun _ => 0) =
      some ([21 / 1000000, 21 / 1000000, -(22 / 1000000)], 3) ∧
    (-(22 / 1000000) : ℚ) < 0 := by
  decide

/-! ### The batching walk -/

/-- Invariant carried by every closed batch: its recorded total is the sum of
its amounts, its two lists run in parallel, and its total respects the hard
ceiling unless it is a lone oversized item. -/
def batchPred {α : Type} (maxB : ℚ) (b : Batch α) : Prop :=
  b.total_amount = b.amounts.sum ∧
  b.addresses.length = b.amounts.length ∧
  (b.total_amount ≤ maxB ∨ ∃ x, b.amounts = [x] ∧ maxB < x)

theorem closed_batch_pred {α : Type} {maxB curTot : ℚ} {curA : List α}
    {curAmts : List ℚ} {num : ℕ}
    (h1 : curTot = curAmts.sum) (h2 : curA.length = curAmts.length)
    (h3 : 2 ≤ curAmts.length → curTot ≤ maxB) (hne : curA ≠ []) :
    batchPred maxB ⟨num, curA, curAmts, curTot, curA.length⟩ := by
  refine ⟨h1, h2, ?_⟩
  match curAmts, h1, h2, h3 with
  | [], h1, h2, h3 =>
      exact absurd (List.length_eq_zero.mp h2) hne
  | [x], h1, h2, h3 =>
      by_cases hx : curTot ≤ maxB
      · exact Or.inl hx
      · refine Or.inr ⟨x, rfl, ?_⟩
        push_neg at hx
        simpa [h1] using hx
  | x :: y :: rest, h1, h2, h3 =>
      exact Or.inl (h3 (by simp))

/-- The master invariant of the batching walk: every closed batch satisfies
`batchPred`, batch numbers stay sequential from 1, the concatenation of the
batches' (address, amount) pairs reproduces exactly the already-consumed
input followed by the rest, and the batch totals sum to what has been
consumed. -/
theorem batchStep_spec {α : Type} (maxB : ℚ) (f : ℕ → ℚ) :
    ∀ (rest : List (α × ℚ)) (batches : List (Batch α)) (curA : List α)
      (curAmts : List ℚ) (curTot : ℚ) (num : ℕ) (target : ℚ) (fIdx : ℕ),
      curTot = curAmts.sum →
      curA.length = curAmts.length →
      (2 ≤ curAmts.length → curTot ≤ maxB) →
      (∀ b ∈ batches, batchPred maxB b) →
      batches.map (fun b => b.batch_number) = List.range' 1 batches.length →
      num = batches.length + 1 →
      (∀ b ∈ batchStep maxB f rest batches curA curAmts curTot num target fIdx,
          batchPred maxB b) ∧
      (batchStep maxB f rest batches curA curAmts curTot num target fIdx).map
          (fun b => b.batch_number) =
        List.range' 1
          (batchStep maxB f rest batches curA curAmts curTot num target fIdx).length ∧
      (batchStep maxB f rest batches curA curAmts curTot num target fIdx).flatMap
          (fun b => b.addresses.zip b.amounts) =
        batches.flatMap (fun b => b.addresses.zip b.amounts) ++
          curA.zip curAmts ++ rest ∧
      ((batchStep maxB f rest batches curA curAmts curTot num target fIdx).map
          (fun b => b.total_amount)).sum =
        (batches.map (fun b => b.total_amount)).sum + curTot +
          (rest.map Prod.snd).sum := by
  intro rest
  induction rest with
  | nil =>
      intro batches curA curAmts curTot num target fIdx h1 h2 h3 h4 h5 h6
      match curA, h2 with
      | [], h2 =>
          have hnil2 : curAmts = [] := List.length_eq_zero.mp h2.symm
          subst hnil2
          simp at h1
          subst h1
          simp only [batchStep]
          simpa using ⟨h4, h5⟩
      | a0 :: curA, h2 =>
          simp only [batchStep]
          refine ⟨?_, ?_, ?_, ?_⟩
          · intro b hb
            rcases List.mem_append.mp hb with hb | hb
            · exact h4 b hb
            · have hbb : b = ⟨num, a0 :: curA, curAmts, curTot, (a0 :: curA).length⟩ := by
                simpa using hb
              subst hbb
              exact closed_batch_pred h1 h2 h3 (by simp)
          · rw [List.map_append, h5, List.length_append]
            simp only [List.map_cons, List.map_nil, List.length_cons, List.length_nil]
            rw [List.range'_concat]
            congr 1
            simp [h6]
            omega
          · simp [List.flatMap_append]
          · simp [List.map_append]
  | cons p rest ih =>
      obtain ⟨a, amt⟩ := p
      intro batches curA curAmts curTot num target fIdx h1 h2 h3 h4 h5 h6
      match curA, h2, h3 with
      | [], h2, h3 =>
          have hnil2 : curAmts = [] := List.length_eq_zero.mp h2.symm
          subst hnil2
          have h1' : curTot = 0 := by simpa using h1
          simp only [batchStep]
          obtain ⟨c1, c2, c3, c4⟩ := ih batches [a] ([] ++ [amt]) (curTot + amt) num
            (privacy_target maxB (f fIdx)) (fIdx + 1)
            (by simp [h1']) (by simp) (by intro hcon; simp at hcon) h4 h5 h6
          refine ⟨c1, c2, ?_, ?_⟩
          · rw [c3]
            simp
          · rw [c4]
            simp [h1']
            ring
      | a0 :: curA, h2, h3 =>
          simp only [batchStep]
          by_cases hclose : curTot + amt > target ∨ curTot + amt > maxB
          · rw [if_pos hclose]
            obtain ⟨c1, c2, c3, c4⟩ := ih
              (batches ++ [⟨num, a0 :: curA, curAmts, curTot, (a0 :: curA).length⟩])
              [a] [amt] amt (num + 1) (privacy_target maxB (f fIdx)) (fIdx + 1)
              (by simp) (by simp) (by intro hcon; simp at hcon)
              (by
                intro b hb
                rcases List.mem_append.mp hb with hb | hb
                · exact h4 b hb
                · have hbb : b =
                      ⟨num, a0 :: curA, curAmts, curTot, (a0 :: curA).length⟩ := by
                    simpa using hb
                  subst hbb
                  exact closed_batch_pred h1 h2 h3 (by simp))
              (by
                rw [List.map_append, h5, List.length_append]
                simp only [List.map_cons, List.map_nil, List.length_cons,
                  List.length_nil]
                rw [List.range'_concat]
                congr 1
                simp [h6]
                omega)
              (by simp [h6])
            refine ⟨c1, c2, ?_, ?_⟩
            · rw [c3]
              simp [List.flatMap_append]
            · rw [c4]
              simp [List.map_append]
              ring
          · rw [if_neg hclose]
            push_neg at hclose
            obtain ⟨c1, c2, c3, c4⟩ := ih batches ((a0 :: curA) ++ [a])
              (curAmts ++ [amt]) (curTot + amt) num target fIdx
              (by rw [List.sum_append, h1]; simp)
              (by simp only [List.length_append, List.length_cons,
                    List.length_nil] at h2 ⊢
                  omega)
              (by intro _; exact hclose.2)
              h4 h5 h6
            refine ⟨c1, c2, ?_, ?_⟩
            · rw [c3, List.zip_append h2]
              simp
            · rw [c4]
              simp
              ring

/-- C4: for every equal-length pair of address and amount lists with
nonnegative amounts and every `maxPerBatch > 0`, every batch returned by
`create_address_batches` has `total_amount` at most `maxPerBatch`, except
possibly a batch consisting of exactly one item whose own amount exceeds
`maxPerBatch`. -/
theorem C4_batch_ceiling {α : Type} (addresses : List α) (amounts : List ℚ)
    (max_bsv_per_batch : ℚ) (randomize : Bool)
    (shuffle : List (α × ℚ) → List (α × ℚ)) (factors : ℕ → ℚ)
    (hlen : addresses.length = amounts.length)
    (hnn : ∀ x ∈ amounts, 0 ≤ x) (hmax : 0 < max_bsv_per_batch) :
    ∀ batches,
      create_address_batches addresses amounts max_bsv_per_batch randomize shuffle factors
        = some batches →
      ∀ b ∈ batches,
        b.total_amount ≤ max_bsv_per_batch ∨
          ∃ x, b.amounts = [x] ∧ max_bsv_per_batch < x := by
  intro batches hres b hb
  unfold create_address_batches at hres
  rw [if_neg (by simp [hlen])] at hres
  injection hres with hres
  subst hres
  exact ((@batchStep_spec α max_bsv_per_batch factors _ [] [] [] 0 1 0 0
    (by simp) rfl (by intro h; simp at h) (by simp) (by simp) rfl).1 b hb).2.2

/-- Witness for C4 on `addresses = [0,1,2]`, `amounts = [6,6,6]`,
`maxPerBatch = 10`, no randomisation, all privacy draws `0`. -/
theorem C4_batch_ceiling_witness :
    (⟨1, [0], [6], 6, 1⟩ : Batch ℕ).total_amount ≤ 10 ∨
      ∃ x, (⟨1, [0], [6], 6, 1⟩ : Batch ℕ).amounts = [x] ∧ (10 : ℚ) < x :=
  C4_batch_ceiling [0, 1, 2] [6, 6, 6] 10 false id (fun _ => 0)
    (by decide) (by decide) (by norm_num)
    [⟨1, [0], [6], 6, 1⟩, ⟨2, [1], [6], 6, 1⟩, ⟨3, [2], [6], 6, 1⟩]
    (by decide) ⟨1, [0], [6], 6, 1⟩ (by decide)

/-- C5: for every equal-length pair of address and amount lists (and any
shuffle that permutes its input), the batches returned by
`create_address_batches` together contain every input (address, amount) pair
exactly once as a multiset, the batch totals sum to the input amounts' sum,
and the batch numbers are sequential starting at 1. -/
theorem C5_batch_completeness {α : Type} (addresses : List α) (amounts : List ℚ)
    (max_bsv_per_batch : ℚ) (randomize : Bool)
    (shuffle : List (α × ℚ) → List (α × ℚ)) (factors : ℕ → ℚ)
    (hlen : addresses.length = amounts.length)
    (hshuffle : (shuffle (addresses.zip amounts)).Perm (addresses.zip amounts)) :
    ∃ batches,
      create_address_batches addresses amounts max_bsv_per_batch randomize shuffle factors
        = some batches ∧
      (batches.flatMap fun b => b.addresses.zip b.amounts).Perm
        (addresses.zip amounts) ∧
      (batches.map fun b => b.total_amount).sum = amounts.sum ∧
      batches.map (fun b => b.batch_number) = List.range' 1 batches.length := by
  set combined := if randomize then shuffle (addresses.zip amounts)
    else addresses.zip amounts with hcomb
  have hperm : combined.Perm (addresses.zip amounts) := by
    rw [hcomb]
    split
    · exact hshuffle
    · exact List.Perm.refl _
  obtain ⟨hpred, hnum, hflat, hsum⟩ := batchStep_spec max_bsv_per_batch factors
    combined [] [] [] 0 1 0 0 (by simp) rfl (by intro h; simp at h)
    (by simp) (by simp) rfl
  refine ⟨batchStep max_bsv_per_batch factors combined [] [] [] 0 1 0 0, ?_, ?_, ?_, hnum⟩
  · unfold create_address_batches
    rw [if_neg (by simp [hlen])]
  · rw [hflat]
    simpa using hperm
  · rw [hsum]
    simp only [List.map_nil, List.sum_nil, List.zip_nil_left, zero_add]
    have h1 : (combined.map Prod.snd).Perm amounts := by
      have h2 := hperm.map Prod.snd
      rwa [List.map_snd_zip addresses amounts (le_of_eq hlen.symm)] at h2
    simpa using h1.sum_eq

/-- Witness for C5 on `addresses = [0,1,2]`, `amounts = [6,6,6]`,
`maxPerBatch = 10`, no randomisation, all privacy draws `0`. -/
theorem C5_batch_completeness_witness :
    ∃ batches,
      create_address_batches [0, 1, 2] ([6, 6, 6] : List ℚ) 10 false id (fun _ => 0)
        = some batches ∧
      (batches.flatMap fun b => b.addresses.zip b.amounts).Perm
        (([0, 1, 2] : List ℕ).zip ([6, 6, 6] : List ℚ)) ∧
      (batches.map fun b => b.total_amount).sum = ([6, 6, 6] : List ℚ).sum ∧
      batches.map (fun b => b.batch_number) = List.range' 1 batches.length :=
  C5_batch_completeness [0, 1, 2] [6, 6, 6] 10 false id (fun _ => 0)
    (by decide) (List.Perm.refl _)

/-- Witness for C10 at `total = 1`, `count = 4`. -/
theorem C10_feasible_suggested_is_requested_witness :
    (validate_distribution_feasibility 1 4 none).2 = 4 ∧
    ((([1 / 4, 1 / 4, 1 / 4, 1 / 4] : List ℚ), (4 : ℤ)).2 = 4) :=
  ⟨(C10_feasible_suggested_is_requested 1 4 none).1 (by decide),
   (C10_feasible_suggested_is_requested 1 4 none).2 (by decide) (by norm_num)
     ([1 / 4, 1 / 4, 1 / 4, 1 / 4], 4) (by decide)⟩

example : decTrunc (10 / 6006 : ℚ) = 0 := by decide
example : quantize8_down ((100000001 : ℚ) / 100000000 / 4) = 1 / 4 := by decide
example : distribute_amounts_equal (100000001 / 100000000) 4 =
    some ([25000001 / 100000000, 1 / 4, 1 / 4, 1 / 4], 4) := by decide
example : distribute_amounts_equal (1 / 100000000) 1 = none := by decide

end DistributionModel
